import Mathlib

/-!
Verification of the expansion pipeline and job table of a small interactive
shell (Rust sources `src/shell.rs`, `src/main.rs`).  Strings are modelled as
`List Char`; tokens are `(separator, word)` pairs exactly as in the source
(`types::Tokens = Vec<(String, String)>`).  External collaborators that are
not part of the two source files (the tokenizer `parsers::parser_line`,
`tools`, `libs::path`, the `glob` crate, `execute::run_pipeline`, the OS
environment, `getpid`, `$HOME`) are modelled from the specification and
carry a doc comment saying so.
-/

set_option autoImplicit false

namespace Cicada

/-- Strings of the Rust source, modelled as lists of characters. -/
abbrev Str := List Char

/-- Convert a Lean string literal to the model representation. -/
def str (s : String) : Str := s.data

/-- The single-quote character `'`. -/
def cQuote : Char := Char.ofNat 39

/-- The double-quote character. -/
def cDquote : Char := Char.ofNat 34

/-- The backtick character. -/
def cBtick : Char := Char.ofNat 96

/-- The backslash character. -/
def cBslash : Char := Char.ofNat 92

/-- The opening curly brace character. -/
def cLbrace : Char := Char.ofNat 123

/-- The closing curly brace character. -/
def cRbrace : Char := Char.ofNat 125

/-- A token of `types::Tokens`: the pair `(sep, word)`. -/
abbrev Token := Str × Str

/-- The token vector `types::Tokens = Vec<(String, String)>`. -/
abbrev Tokens := List Token

/-- Does the list start with the given pattern (Rust `str::starts_with`)? -/
def leadsWith : Str → Str → Bool
  | [], _ => true
  | _ :: _, [] => false
  | p :: ps, c :: cs => p = c && leadsWith ps cs

/-- Does the list end with the given pattern (Rust `str::ends_with`)? -/
def endsWith (pat s : Str) : Bool := leadsWith pat.reverse s.reverse

/-- Rust `char::is_whitespace`, restricted to the ASCII whitespace that the
shell's tokens can contain. -/
def isWs (c : Char) : Bool := c = ' ' || c = '\t' || c = '\n' || c = '\r'

/-- Rust `str::trim`: drop whitespace from both ends. -/
def rustTrim (s : Str) : Str := ((s.dropWhile isWs).reverse.dropWhile isWs).reverse

/-- `types::Job`: one background/stopped pipeline in the job table. -/
structure Job where
  cmd : Str
  id : Int
  gid : Int
  pids : List Int
  status : Str
  report : Bool
  deriving DecidableEq, Repr

/-- Lookup in a `HashMap` modelled as an association list (`jobs.get(&k)`). -/
def hmGet {α : Type} [DecidableEq α] {β : Type} (l : List (α × β)) (k : α) : Option β :=
  (l.find? (fun p => p.1 = k)).map (fun p => p.2)

/-- `HashMap::insert`: replace the binding of `k` if present, else append. -/
def hmInsert {α : Type} [DecidableEq α] {β : Type} (l : List (α × β)) (k : α) (v : β) :
    List (α × β) :=
  match l with
  | [] => [(k, v)]
  | (k0, v0) :: rest =>
    if k0 = k then (k, v) :: rest else (k0, v0) :: hmInsert rest k v

/-- `HashMap::remove`: drop the binding of `k` (there is at most one). -/
def hmRemove {α : Type} [DecidableEq α] {β : Type} (l : List (α × β)) (k : α) :
    List (α × β) :=
  match l with
  | [] => []
  | (k0, v0) :: rest => if k0 = k then rest else (k0, v0) :: hmRemove rest k

/-- The `Shell` struct of `src/shell.rs`. -/
structure Shell where
  jobs : List (Int × Job)
  /-- the source field is named `alias`, a reserved word here -/
  aliases : List (Str × Str)
  envs : List (Str × Str)
  cmd : Str
  previous_dir : Str
  previous_cmd : Str
  previous_status : Int
  deriving Repr

/-- `Shell::new()`. -/
def Shell.new : Shell :=
  { jobs := [], aliases := [], envs := [], cmd := [], previous_dir := [],
    previous_cmd := [], previous_status := 0 }

/-- The loop body of `Shell::insert_job`: scan ids `i, i+1, ...`; push `pid`
onto the first job whose `gid` matches, or create a new job at the first
missing id.  The Rust loop is unbounded; a free id always exists among the
first `jobs.length + 1` candidates, so that much fuel makes the model total. -/
def insertJobLoop (jobs : List (Int × Job)) (gid pid : Int) (cmdW : Str) (status : Str)
    (bg : Bool) : Int → Nat → List (Int × Job)
  | _, 0 => jobs
  | i, fuel + 1 =>
    match hmGet jobs i with
    | some x =>
      if x.gid = gid then hmInsert jobs i { x with pids := x.pids ++ [pid] }
      else insertJobLoop jobs gid pid cmdW status bg (i + 1) fuel
    | none =>
      hmInsert jobs i
        { cmd := cmdW, id := i, gid := gid, pids := [pid], status := status, report := bg }

/-- `Shell::insert_job(gid, pid, cmd, status, bg)`. -/
def Shell.insert_job (sh : Shell) (gid pid : Int) (cmdA : Str) (status : Str) (bg : Bool) :
    Shell :=
  let cmdW := if bg && !endsWith (str "&") cmdA then cmdA ++ str " &" else cmdA
  { sh with jobs := insertJobLoop sh.jobs gid pid cmdW status bg 1 (sh.jobs.length + 1) }

/-- Rust `slice::binary_search` (the classical bisection of the standard
library); the number of steps is bounded by the slice length. -/
def binSearchAux (a : List Int) (target : Int) : Nat → Nat → Nat → Option Nat
  | _, _, 0 => none
  | left, right, fuel + 1 =>
    if left < right then
      let mid := left + (right - left) / 2
      let v := a.getD mid 0
      if v < target then binSearchAux a target (mid + 1) right fuel
      else if target < v then binSearchAux a target left mid fuel
      else some mid
    else none

/-- Rust `slice::binary_search(&pid)` on the pid vector. -/
def binSearch (a : List Int) (target : Int) : Option Nat :=
  binSearchAux a target 0 a.length (a.length + 1)

/-- The scan of `Shell::remove_pid_from_job`: find the id of the job whose
`gid` matches, trying `i = 1, 2, ...` and giving up when `i` reaches 65535. -/
def findGidIdx (jobs : List (Int × Job)) (gid : Int) : Int → Nat → Option Int
  | _, 0 => none
  | i, fuel + 1 =>
    match hmGet jobs i with
    | some x => if x.gid = gid then some i else findGidIdx jobs gid (i + 1) fuel
    | none => findGidIdx jobs gid (i + 1) fuel

/-- `Shell::remove_pid_from_job(gid, pid)`: remove `pid` from the matching
job's pid list (via binary search); when the list empties, remove and return
the job. -/
def Shell.remove_pid_from_job (sh : Shell) (gid pid : Int) : Shell × Option Job :=
  if sh.jobs.isEmpty then (sh, none)
  else
    match findGidIdx sh.jobs gid 1 65534 with
    | none => (sh, none)
    | some i =>
      match hmGet sh.jobs i with
      | none => (sh, none)
      | some x =>
        let pids1 := match binSearch x.pids pid with
          | some k => x.pids.eraseIdx k
          | none => x.pids
        let x1 := { x with pids := pids1 }
        let jobs1 := hmInsert sh.jobs i x1
        if pids1.isEmpty then ({ sh with jobs := hmRemove jobs1 i }, some x1)
        else ({ sh with jobs := jobs1 }, none)

/-- `Shell::get_env`. -/
def Shell.get_env (sh : Shell) (name : Str) : Option Str := hmGet sh.envs name

/-- `Shell::add_alias`. -/
def Shell.add_alias (sh : Shell) (name value : Str) : Shell :=
  { sh with aliases := hmInsert sh.aliases name value }

/-- `Shell::is_alias`. -/
def Shell.is_alias (sh : Shell) (name : Str) : Bool := (hmGet sh.aliases name).isSome

/-- `Shell::get_alias_content`: the stored expansion, with the empty string
collapsed to `None`. -/
def Shell.get_alias_content (sh : Shell) (name : Str) : Option Str :=
  let result := match hmGet sh.aliases name with
    | some x => x
    | none => []
  if result.isEmpty then none else some result


/-- The external-world inputs of the expansion pipeline.  Modelled from the
spec: the OS environment (`std::env::var`), the current process id
(`libc::getpid`), the user home directory (`tools::get_user_home`), the
pathname matcher (`glob::glob`, returning its entries in order), and the
captured stdout of a sub-pipeline run in capture mode
(`execute::run_pipeline(sh, args, "", false, false, true, false, None)`),
none of which are defined in the two source files.  Sub-pipelines are taken
to leave the shell state unchanged, as the spec's capture mode runs them
against a temporary shell view. -/
structure Sys where
  osEnv : Str → Option Str
  pid : Int
  home : Str
  glob : Str → List Str
  runCapture : Tokens → Str

/-- A trivial environment used by concrete evaluations. -/
def sysNull : Sys :=
  { osEnv := fun _ => none, pid := 42, home := str "/home/u",
    glob := fun _ => [], runCapture := fun _ => [] }

/-- Step of the tokenizer inside a quoted run (state: the opening quote
character); a backslash escapes the next character inside double quotes and
backticks.  The run closes at the next (unescaped) quote character; the
result is the enclosed word and the remaining input. -/
def cttQuoted (qc : Char) (cur : Str) : Str → Str × Str
  | [] => (cur, [])
  | c :: rest =>
    if c = qc then (cur, rest)
    else if c = cBslash && (qc = cDquote || qc = cBtick) then
      match rest with
      | [] => (cur ++ [c], [])
      | d :: rest1 => cttQuoted qc (cur ++ [d]) rest1
    else cttQuoted qc (cur ++ [c]) rest

/-- Emit the pending unquoted word, if nonempty. -/
def cttFlush (cur : Str) (ts : Tokens) : Tokens :=
  if cur.isEmpty then ts else ([], cur) :: ts

/-- Main state of the tokenizer: outside quotes, whitespace separates words,
quote characters open quoted runs, a backslash escapes one character into a
token with separator `"\\"`, and the operators `| || & && ; < << > >>` are
emitted as their own tokens.  Every step consumes at least one character, so
the fuel `line.length + 1` supplied below never runs out. -/
def cttNormal : Nat → Str → Str → Tokens
  | 0, cur, _ => cttFlush cur []
  | fuel + 1, cur, s =>
    match s with
    | [] => cttFlush cur []
    | c :: rest =>
      if c = ' ' then cttFlush cur (cttNormal fuel [] rest)
      else if c = cQuote || c = cDquote || c = cBtick then
        let p := cttQuoted c [] rest
        cttFlush cur (([c], p.1) :: cttNormal fuel [] p.2)
      else if c = cBslash then
        match rest with
        | [] => cttFlush cur [([cBslash], [])]
        | d :: rest1 => cttFlush cur (([cBslash], [d]) :: cttNormal fuel [] rest1)
      else if c = '|' || c = '&' || c = '<' || c = '>' then
        match rest with
        | d :: rest1 =>
          if d = c then cttFlush cur (([], [c, c]) :: cttNormal fuel [] rest1)
          else cttFlush cur (([], [c]) :: cttNormal fuel [] (d :: rest1))
        | [] => cttFlush cur [([], [c])]
      else if c = ';' then cttFlush cur (([], [c]) :: cttNormal fuel [] rest)
      else cttNormal fuel (cur ++ [c]) rest

/-- Modelled from the spec: `parsers::parser_line::cmd_to_tokens`, the
hand-written lexer of section 4.A, is not among the source files.  It splits
a line into `(separator, word)` pairs: whitespace separates unquoted words;
`'`, `"` and a backtick open quoted runs whose content becomes one token
tagged with that quote as separator; `\c` outside single quotes yields a
literal `c` token with separator `"\\"`; the operators are emitted as their
own tokens with empty separator (the redirection forms `2>`/`2>&1` are not
recognized here, no claim exercises them); dollar sequences are kept verbatim
inside their host word. -/
def cmd_to_tokens (line : Str) : Tokens := cttNormal (line.length + 1) [] line


/-- Modelled from the spec: `libs::path::basename` is not among the source
files; it is the path component after the last slash (the whole path when
there is no slash). -/
def basename (p : Str) : Str := (p.reverse.takeWhile (fun c => c ≠ '/')).reverse

/-- Modelled from the spec: `tools::is_arithmetic` is not among the source
files.  Per the spec's test table (`2 * 3` is arithmetic, `*`, `ls *` are
not), a line is arithmetic when it contains a digit and consists only of
digits, spaces, dots, parentheses and the four operators. -/
def is_arithmetic (line : Str) : Bool :=
  line.any (fun c => c.isDigit) &&
    line.all (fun c =>
      c.isDigit || c = ' ' || c = '.' || c = '(' || c = ')' ||
      c = '+' || c = '-' || c = '*' || c = '/')

/-- `needs_globbing`: not arithmetic, and some unquoted token of the
re-tokenized line matches the regex `\*+`, i.e. contains a star. -/
def needs_globbing (line : Str) : Bool :=
  if is_arithmetic line then false
  else (cmd_to_tokens line).any (fun t => t.1.isEmpty && t.2.contains '*')

/-- Rust `str::split(' ')` (keeps empty pieces). -/
def splitSpaceAux (cur : Str) : Str → List Str
  | [] => [cur]
  | c :: rest => if c = ' ' then cur :: splitSpaceAux [] rest else splitSpaceAux (cur ++ [c]) rest

/-- Rust `str::split(' ')`. -/
def splitSpace (s : Str) : List Str := splitSpaceAux [] s

/-- First letter then at least one more name character: the core of the
regex `[a-zA-Z][a-zA-Z0-9_]+`. -/
def startsName : Str → Bool
  | a :: b :: _ => a.isAlpha && (b.isAlpha || b.isDigit || b = '_')
  | _ => false

/-- Does the token contain a match of `\$\{?[a-zA-Z][a-zA-Z0-9_]+\}?`? -/
def hasEnvVar : Str → Bool
  | [] => false
  | c :: rest =>
    (c = '$' && (startsName rest ||
      (match rest with
       | d :: rest2 => d = cLbrace && startsName rest2
       | [] => false))) || hasEnvVar rest

/-- `env_in_token`: the token is exactly `$$` or `$?`, or contains
`$NAME`/`${NAME}` with a name of at least two characters. -/
def env_in_token (token : Str) : Bool :=
  token = str "$$" || token = str "$?" || hasEnvVar token

/-- The character class `[A-Za-z0-9\?\$_]` of the variable regex in
`extend_env_blindly`. -/
def envClass (c : Char) : Bool :=
  c.isAlpha || c.isDigit || c = '?' || c = '$' || c = '_'

/-- Consume the optional closing brace of `\}?`. -/
def dropRbrace : Str → Str
  | [] => []
  | c :: rest => if c = cRbrace then rest else c :: rest

/-- Match `\{?([A-Za-z0-9\?\$_]+)\}?` immediately after a `$`: the greedy
name run (optionally brace-wrapped) and the remaining input. -/
def matchNameAt (s : Str) : Option (Str × Str) :=
  match s with
  | [] => none
  | c :: rest =>
    if c = cLbrace then
      let name := rest.takeWhile envClass
      if name.isEmpty then none
      else some (name, dropRbrace (rest.dropWhile envClass))
    else
      let name := s.takeWhile envClass
      if name.isEmpty then none
      else some (name, dropRbrace (s.dropWhile envClass))

/-- Leftmost match of `([^\$]*)\$\{?([A-Za-z0-9\?\$_]+)\}?(.*)` as the `regex`
crate finds it: the `\$` must match a literal dollar; when the name part
fails after a dollar, the engine slides past it, so the text before a later
successful dollar (up to the preceding failed dollar) is dropped from the
captures.  Returns `(head, key, tail)`. -/
def findCap (acc : Str) : Str → Option (Str × Str × Str)
  | [] => none
  | c :: rest =>
    if c = '$' then
      match matchNameAt rest with
      | some p => some (acc, p.1, p.2)
      | none => findCap [] rest
    else findCap (acc ++ [c]) rest

/-- Resolution of one captured key in `extend_env_blindly`: `?` is the
previous status, `$` the shell pid, then the OS environment, then the
shell-scoped map, then the empty string. -/
def resolveVar (sys : Sys) (sh : Shell) (key : Str) : Str :=
  if key = str "?" then (toString sh.previous_status).data
  else if key = str "$" then (toString sys.pid).data
  else
    match sys.osEnv key with
    | some v => v
    | none =>
      match sh.get_env key with
      | some v => v
      | none => []

theorem dropWhile_length_le (p : Char → Bool) (l : Str) :
    (l.dropWhile p).length ≤ l.length := by
  induction l with
  | nil => simp
  | cons c rest ih =>
    rw [List.dropWhile_cons]
    by_cases h : p c
    · simp only [h, if_pos]
      simpa using Nat.le_succ_of_le ih
    · simp [h]

theorem dropRbrace_length_le (l : Str) : (dropRbrace l).length ≤ l.length := by
  unfold dropRbrace
  match l with
  | [] => simp
  | x :: xs => by_cases hx : x = cRbrace <;> simp [hx]

theorem matchNameAt_tail_length {s name tail : Str}
    (h : matchNameAt s = some (name, tail)) : tail.length < s.length := by
  match s with
  | [] => simp [matchNameAt] at h
  | c :: rest =>
    simp only [matchNameAt] at h
    by_cases hc : c = cLbrace
    · rw [if_pos hc] at h
      by_cases he : (rest.takeWhile envClass).isEmpty
      · rw [if_pos he] at h; exact absurd h (by simp)
      · rw [if_neg he] at h
        injection h with h1
        rw [Prod.mk.injEq] at h1
        obtain ⟨_, h2⟩ := h1
        subst h2
        calc (dropRbrace (rest.dropWhile envClass)).length
            ≤ (rest.dropWhile envClass).length := dropRbrace_length_le _
          _ ≤ rest.length := dropWhile_length_le _ _
          _ < (c :: rest).length := by simp
    · rw [if_neg hc] at h
      by_cases he : ((c :: rest).takeWhile envClass).isEmpty
      · rw [if_pos he] at h; exact absurd h (by simp)
      · rw [if_neg he] at h
        injection h with h1
        rw [Prod.mk.injEq] at h1
        obtain ⟨_, h2⟩ := h1
        subst h2
        have hne : envClass c = true := by
          by_contra hcc
          simp only [Bool.not_eq_true] at hcc
          rw [List.takeWhile_cons, hcc] at he
          simp at he
        calc (dropRbrace ((c :: rest).dropWhile envClass)).length
            ≤ ((c :: rest).dropWhile envClass).length := dropRbrace_length_le _
          _ ≤ rest.length := by
              rw [List.dropWhile_cons, hne]
              simpa using dropWhile_length_le envClass rest
          _ < (c :: rest).length := by simp

theorem findCap_tail_length {acc s head key tail : Str}
    (h : findCap acc s = some (head, key, tail)) : tail.length < s.length := by
  induction s generalizing acc with
  | nil => simp [findCap] at h
  | cons c rest ih =>
    simp only [findCap] at h
    by_cases hc : c = '$'
    · rw [if_pos hc] at h
      match hm : matchNameAt rest with
      | some (n, t) =>
        rw [hm] at h
        simp only [Option.some.injEq, Prod.mk.injEq] at h
        obtain ⟨_, _, h3⟩ := h
        subst h3
        exact Nat.lt_succ_of_lt (matchNameAt_tail_length hm)
      | none =>
        rw [hm] at h
        exact Nat.lt_succ_of_lt (ih h)
    · rw [if_neg hc] at h
      exact Nat.lt_succ_of_lt (ih h)

/-- `extend_env_blindly(sh, token)`: repeatedly find the leftmost variable
capture, emit `head ++ value`, and continue on the tail; when no capture
remains, emit the rest verbatim. -/
def extend_env_blindly (sys : Sys) (sh : Shell) (token : Str) : Str :=
  match h : findCap [] token with
  | none => token
  | some (head, key, tail) =>
    head ++ resolveVar sys sh key ++
      (if tail.isEmpty then [] else extend_env_blindly sys sh tail)
termination_by token.length
decreasing_by exact findCap_tail_length h


/-- Does the line match `\$\([^\)]+\)` (`should_do_dollar_command_extension`)?
True when some `$(` is followed by at least one non-`)` character and a
closing `)`. -/
def sdeClose : Str → Bool
  | [] => false
  | c :: rest => if c = ')' then true else sdeClose rest

/-- After a `$(`: at least one non-`)` character, then a `)` somewhere. -/
def sdeBody : Str → Bool
  | [] => false
  | c :: rest => if c = ')' then false else sdeClose rest

/-- Scan for a `\$\([^\)]+\)` match. -/
def sdeScan : Str → Bool
  | [] => false
  | c :: rest =>
    (c = '$' && (match rest with
      | d :: rest2 => d = '(' && sdeBody rest2
      | [] => false)) || sdeScan rest

/-- `should_do_dollar_command_extension`. -/
def should_do_dollar_command_extension (line : Str) : Bool := sdeScan line

/-- The longest proper stem of `l` that is followed by a `)` in `l`, i.e.
the greedy-with-backtrack body of `[^\(]+\)`: everything before the last
closing parenthesis (`none` when there is no `)` or the body is empty). -/
def lastRparenStem (l : Str) : Option Str :=
  match l.reverse.dropWhile (fun c => c ≠ ')') with
  | [] => none
  | _ :: restR => if restR.isEmpty then none else some restR.reverse

/-- Parse `\(([^\(]+)\)` directly after a `$`: the captured group and the
text after its closing parenthesis. -/
def dollarGroupAt (r : Str) : Option (Str × Str) :=
  match r with
  | c :: r2 =>
    if c = '(' then
      match lastRparenStem (r2.takeWhile (fun x => x ≠ '(')) with
      | some body => some (body, r2.drop (body.length + 1))
      | none => none
    else none
  | [] => none

/-- `libs::re::find_first_group` for the pattern `\$\(([^\(]+)\)`: the first
`$(`-group whose stem (up to the first `(`) still contains a `)`. -/
def ffgScan : Str → Option Str
  | [] => none
  | c :: rest =>
    if c = '$' then
      match dollarGroupAt rest with
      | some p => some p.1
      | none => ffgScan rest
    else ffgScan rest

/-- One `re.replace` with the pattern
`(?P<head>[^\$]*)\$\([^\(]+\)(?P<tail>.*)` and template
`${head}output${tail}`: text before the match start is kept, the head run
and tail are re-emitted around the substituted output.  `kept` is the text
the engine slid past (dollars whose group failed), `acc` the current
candidate head run. -/
def dollarReplaceOnce (out : Str) (kept acc : Str) : Str → Str
  | [] => kept ++ acc
  | c :: rest =>
    if c = '$' then
      match dollarGroupAt rest with
      | some p => kept ++ acc ++ out ++ p.2
      | none => dollarReplaceOnce out (kept ++ acc ++ ['$']) [] rest
    else dollarReplaceOnce out kept (acc ++ [c]) rest

/-- The substitution loop of `do_command_substitution_for_dollar`: while the
line still matches `\$\([^\)]+\)`, extract the first group, run it, and
replace.  The source loop is unbounded and can diverge when a substitution
re-introduces `$(`; the model bounds it with fuel (no theorem below enters
the loop). -/
def dollarLoop (sys : Sys) (sh : Shell) : Nat → Str → Str
  | 0, line => line
  | fuel + 1, line =>
    if should_do_dollar_command_extension line then
      match ffgScan line with
      | some cmd =>
        let out := rustTrim (sys.runCapture (cmd_to_tokens cmd))
        dollarLoop sys sh fuel (dollarReplaceOnce out [] [] line)
      | none => line
    else line

/-- `do_command_substitution_for_dollar`: rewrite the word of every token
whose separator is not `'` or `\\` and that matches `\$\([^\)]+\)` (the side
buffer writes back only the word at the same index, so the pass is an
index-preserving map). -/
def do_command_substitution_for_dollar (sys : Sys) (sh : Shell) (tokens : Tokens) : Tokens :=
  tokens.map (fun t =>
    if t.1 = [cQuote] || t.1 = [cBslash] || !should_do_dollar_command_extension t.2 then t
    else (t.1, dollarLoop sys sh (t.2.length + 1) t.2))

/-- The anchored split of `^([^`]*)`([^`]+)`(.*)$` (backtick pair inside a
word): text before the first backtick, the nonempty body, and the rest after
the closing backtick. -/
def btSplit (s : Str) : Option (Str × Str × Str) :=
  match s.dropWhile (fun c => c ≠ cBtick) with
  | [] => none
  | _ :: rest =>
    let body := rest.takeWhile (fun c => c ≠ cBtick)
    if body.isEmpty then none
    else
      match rest.dropWhile (fun c => c ≠ cBtick) with
      | [] => none
      | _ :: tail => some (s.takeWhile (fun c => c ≠ cBtick), body, tail)

/-- The backtick-pair loop of `do_command_substitution_for_dot` on words with
separator `""` or `"`: accumulate `head ++ captured-output` for each pair,
then the unmatched rest.  The consumed part of the word shrinks each round,
so `word.length + 1` fuel suffices. -/
def dotLoop (sys : Sys) (sh : Shell) : Nat → Str → Str → Str
  | 0, item, t => item ++ t
  | fuel + 1, item, t =>
    match btSplit t with
    | none => item ++ t
    | some (head, body, tail) =>
      let out := rustTrim (sys.runCapture (cmd_to_tokens body))
      if tail.isEmpty then item ++ head ++ out
      else dotLoop sys sh fuel (item ++ head ++ out) tail

/-- `do_command_substitution_for_dot`: a token with separator `` ` `` has its
word replaced by the trimmed captured stdout of running it (the separator is
left untouched, the writeback assigns only the word field); a token with
separator `"` or `""` containing a backtick pair goes through the pair loop;
all other tokens pass through. -/
def do_command_substitution_for_dot (sys : Sys) (sh : Shell) (tokens : Tokens) : Tokens :=
  tokens.map (fun t =>
    if t.1 = [cBtick] then (t.1, rustTrim (sys.runCapture (cmd_to_tokens t.2)))
    else if t.1 = [cDquote] || t.1.isEmpty then
      match btSplit t.2 with
      | none => t
      | some _ => (t.1, dotLoop sys sh (t.2.length + 1) [] t.2)
    else t)

/-- `do_command_substitution`: backtick pass, then dollar-paren pass. -/
def do_command_substitution (sys : Sys) (sh : Shell) (tokens : Tokens) : Tokens :=
  do_command_substitution_for_dollar sys sh (do_command_substitution_for_dot sys sh tokens)


/-- Scan for the unanchored tilde patterns of `needs_expand_home`:
`( +~ +)`, `( +~/)` and `( +~ *$)` — a space directly before `~` followed by
a space, a slash, or only spaces up to the end. -/
def tildeScan : Str → Bool
  | ' ' :: '~' :: rest =>
    (match rest with
     | [] => true
     | ' ' :: _ => true
     | '/' :: _ => true
     | _ => false) || tildeScan rest
  | _ :: rest => tildeScan rest
  | [] => false

/-- `needs_expand_home(line)`: does the line match
`( +~ +)|( +~/)|(^ *~/)|( +~ *$)`? -/
def needs_expand_home (line : Str) : Bool :=
  (match line.dropWhile (fun c => c = ' ') with
   | '~' :: '/' :: _ => true
   | _ => false) || tildeScan line

/-- `replace_all` with `(?P<head> +)~(?P<tail> +)` and template
`$head{home}$tail`: a space run, `~`, a space run; scanning resumes after
the consumed tail.  Each step consumes input, so length-plus-one fuel
suffices. -/
def repl1Aux (home : Str) : Nat → Str → Str
  | 0, s => s
  | _ + 1, [] => []
  | fuel + 1, c :: rest =>
    if c = ' ' then
      let sp := c :: rest.takeWhile (fun x => x = ' ')
      let r1 := rest.dropWhile (fun x => x = ' ')
      match r1 with
      | '~' :: r2 =>
        match r2 with
        | ' ' :: _ =>
          sp ++ home ++ r2.takeWhile (fun x => x = ' ') ++
            repl1Aux home fuel (r2.dropWhile (fun x => x = ' '))
        | _ => sp ++ '~' :: repl1Aux home fuel r2
      | _ => sp ++ repl1Aux home fuel r1
    else c :: repl1Aux home fuel rest

/-- The first home regex `( +)~( +)`. -/
def repl1 (home s : Str) : Str := repl1Aux home (s.length + 1) s

/-- `replace_all` with `(?P<head> +)~(?P<tail>/)`. -/
def repl2Aux (home : Str) : Nat → Str → Str
  | 0, s => s
  | _ + 1, [] => []
  | fuel + 1, c :: rest =>
    if c = ' ' then
      let sp := c :: rest.takeWhile (fun x => x = ' ')
      let r1 := rest.dropWhile (fun x => x = ' ')
      match r1 with
      | '~' :: '/' :: r2 => sp ++ home ++ '/' :: repl2Aux home fuel r2
      | _ => sp ++ repl2Aux home fuel r1
    else c :: repl2Aux home fuel rest

/-- The second home regex `( +)~(/)`. -/
def repl2 (home s : Str) : Str := repl2Aux home (s.length + 1) s

/-- `replace_all` with the anchored `^(?P<head> *)~(?P<tail>/)`: at most one
match, at the start of the string. -/
def repl3 (home s : Str) : Str :=
  match s.dropWhile (fun c => c = ' ') with
  | '~' :: '/' :: rest => s.takeWhile (fun c => c = ' ') ++ home ++ '/' :: rest
  | _ => s

/-- `replace_all` with `(?P<head> +)~(?P<tail> *$)`: a space run, `~`, then
only spaces to the end of the string. -/
def repl4Aux (home : Str) : Nat → Str → Str
  | 0, s => s
  | _ + 1, [] => []
  | fuel + 1, c :: rest =>
    if c = ' ' then
      let sp := c :: rest.takeWhile (fun x => x = ' ')
      let r1 := rest.dropWhile (fun x => x = ' ')
      match r1 with
      | '~' :: r2 =>
        if r2.all (fun x => x = ' ') then sp ++ home ++ r2
        else sp ++ '~' :: repl4Aux home fuel r2
      | _ => sp ++ repl4Aux home fuel r1
    else c :: repl4Aux home fuel rest

/-- The fourth home regex `( +)~( *$)`. -/
def repl4 (home s : Str) : Str := repl4Aux home (s.length + 1) s

/-- The body of `expand_home` for one word: the four tilde regexes applied
in order, each via `replace_all` with the user home substituted between the
head and tail groups. -/
def expandHomeWord (home w : Str) : Str := repl4 home (repl3 home (repl2 home (repl1 home w)))

/-- `expand_home`: rewrite the word of every token with empty separator that
`needs_expand_home`; the side buffer writes back only the word at the same
index, so the pass is an index-preserving map. -/
def expand_home (sys : Sys) (tokens : Tokens) : Tokens :=
  tokens.map (fun t =>
    if !t.1.isEmpty || !needs_expand_home t.2 then t
    else (t.1, expandHomeWord sys.home t.2))

/-- `expand_env`: rewrite the word of every token whose separator is not a
backtick or a single quote and whose word passes `env_in_token`; an
index-preserving map for the same reason as `expand_home`. -/
def expand_env (sys : Sys) (sh : Shell) (tokens : Tokens) : Tokens :=
  tokens.map (fun t =>
    if t.1 = [cBtick] || t.1 = [cQuote] || !env_in_token t.2 then t
    else (t.1, extend_env_blindly sys sh t.2))

/-- The run continuation of `should_extend_brace` after an opening brace:
walk characters allowed by `[^ \"\']`, looking for a `}` after at least one
comma. -/
def sebAfter : Str → Bool → Bool
  | [], _ => false
  | c :: rest, seen =>
    if c = ' ' || c = cDquote || c = cQuote then false
    else if c = cRbrace && seen then true
    else if c = ',' then sebAfter rest true
    else sebAfter rest seen

/-- Modelled from the spec: `tools::should_extend_brace` is not among the
source files.  Per the spec, a token is brace-expanded when it contains a
`{...,...}` group, i.e. matches `\{[^ \"\']*,[^ \"\']*\}`. -/
def should_extend_brace : Str → Bool
  | [] => false
  | c :: rest => (if c = cLbrace then sebAfter rest false else false) || should_extend_brace rest

/-- Modelled from the spec: `tools::wrap_sep_string(sep, token)` re-wraps a
token in its separator, `sep ++ token ++ sep`. -/
def wrap_sep_string (sep tok : Str) : Str := sep ++ tok ++ sep

/-- State of the character walk of `expand_brace` (the Rust locals
`_prefix`, `_token`, `_result`, `only_tail_left`, `start_sign_found`). -/
structure BraceSt where
  pre : Str
  tok : Str
  res : List Str
  onlyTail : Bool
  started : Bool

/-- One step of the `expand_brace` character walk, in the source's order of
checks: `{` starts (and is swallowed), text before it goes to the common
head, after `}` everything goes to the common tail, `,` and `}` close the
pending alternative. -/
def braceStep (st : BraceSt) (c : Char) : BraceSt :=
  if c = cLbrace then { st with started := true }
  else if !st.started then { st with pre := st.pre ++ [c] }
  else if st.onlyTail then { st with tok := st.tok ++ [c] }
  else if c = cRbrace then
    if !st.tok.isEmpty then { st with res := st.res ++ [st.tok], tok := [], onlyTail := true }
    else { st with onlyTail := true }
  else if c = ',' then
    if !st.tok.isEmpty then { st with res := st.res ++ [st.tok], tok := [] }
    else st
  else { st with tok := st.tok ++ [c] }

/-- All alternatives of one brace token: each collected piece wrapped in the
common head and tail. -/
def braceAlternatives (tok : Str) : List Str :=
  let st := tok.foldl braceStep { pre := [], tok := [], res := [], onlyTail := false, started := false }
  st.res.map (fun item => st.pre ++ item ++ st.tok)

/-- The replacement list of `expand_brace` for one line: re-tokenize and
either expand each unquoted brace token or re-wrap the token in its
separator. -/
def braceResult (line : Str) : List Str :=
  (cmd_to_tokens line).foldr
    (fun t acc =>
      (if t.1.isEmpty && should_extend_brace t.2 then braceAlternatives t.2
       else [wrap_sep_string t.1 t.2]) ++ acc) []

/-- The side buffer of `expand_brace`/`expand_glob`: pairs of the index of a
rewritten token and its replacement strings, in ascending index order. -/
def buffOf (gate : Str → Bool) (result : Str → List Str) : Nat → Tokens → List (Nat × List Str)
  | _, [] => []
  | idx, t :: rest =>
    if !t.1.isEmpty || !gate t.2 then buffOf gate result (idx + 1) rest
    else (idx, result t.2) :: buffOf gate result (idx + 1) rest

/-- Application of the side buffer: remove the token at the recorded index
and insert the replacements there, choosing separator `"` for any
replacement containing a space.  The source iterates a `HashMap`, whose
order is unspecified; the model fixes ascending index order (the recorded
indices are not adjusted for earlier insertions, exactly as in the source).
Out-of-range removals and insertions are no-ops here where the source would
panic; no theorem below relies on that case. -/
def applyBuff (buff : List (Nat × List Str)) (ts : Tokens) : Tokens :=
  buff.foldl
    (fun acc p =>
      let rs : Tokens := p.2.map (fun r => ((if r.contains ' ' then [cDquote] else []), r))
      let removed := acc.eraseIdx p.1
      removed.take p.1 ++ rs ++ removed.drop p.1)
    ts

/-- `expand_brace`. -/
def expand_brace (tokens : Tokens) : Tokens :=
  applyBuff (buffOf should_extend_brace braceResult 0 tokens) tokens

/-- The per-path filter loop of `expand_glob`: drop `.` and `..`, drop
hidden entries unless `show_hidden`, and record whether anything was kept. -/
def globMatchLoop (paths : List Str) (show_hidden : Bool) : List Str × Bool :=
  paths.foldl
    (fun acc p =>
      let b := basename p
      if b = str ".." || b = str "." then acc
      else if leadsWith (str ".") b && !show_hidden then acc
      else (acc.1 ++ [p], false))
    ([], true)

/-- The per-item expansion of `expand_glob`: items without a star or opening
with a quote pass through; otherwise the glob matches are filtered, hidden
entries being shown only when the pattern's basename starts with the two
characters `.*`; and an empty match set falls back to the item itself. -/
def globItem (sys : Sys) (item : Str) : List Str :=
  if !item.contains '*' || leadsWith [cQuote] (rustTrim item) || leadsWith [cDquote] (rustTrim item) then
    [item]
  else
    let show_hidden := leadsWith (str ".*") (basename item)
    let r := globMatchLoop (sys.glob item) show_hidden
    if r.2 then [item] else r.1

/-- The replacement list of `expand_glob` for one token text: split on
single spaces, expand each item. -/
def globResult (sys : Sys) (text : Str) : List Str :=
  (splitSpace text).foldr (fun item acc => globItem sys item ++ acc) []

/-- `expand_glob`. -/
def expand_glob (sys : Sys) (tokens : Tokens) : Tokens :=
  applyBuff (buffOf needs_globbing (globResult sys) 0 tokens) tokens

/-- The side buffer of `expand_alias`: for each head-position token (the
flag resets after an unquoted `|`) whose text is an alias with nonempty
content, record the index and the alias body.  Note the head check does not
test the separator. -/
def aliasBuff (sh : Shell) : Nat → Bool → Tokens → List (Nat × Str)
  | _, _, [] => []
  | idx, is_head, t :: rest =>
    if t.1.isEmpty && t.2 = str "|" then aliasBuff sh (idx + 1) true rest
    else if !is_head || !sh.is_alias t.2 then aliasBuff sh (idx + 1) false rest
    else
      match sh.get_alias_content t.2 with
      | some value => (idx, value) :: aliasBuff sh (idx + 1) false rest
      | none => aliasBuff sh (idx + 1) false rest

/-- Replace the token at index `i` by a spliced token list. -/
def spliceAt (i : Nat) (new : Tokens) (ts : Tokens) : Tokens :=
  ts.take i ++ new ++ ts.drop (i + 1)

/-- `expand_alias`: collect the buffer, then apply it in reverse index order
(the source iterates the `Vec` backwards), splicing the re-tokenized alias
body in place of each recorded token. -/
def expand_alias (sh : Shell) (tokens : Tokens) : Tokens :=
  (aliasBuff sh 0 true tokens).reverse.foldl
    (fun acc p => spliceAt p.1 (cmd_to_tokens p.2) acc) tokens

/-- The early-return guard of `do_expansion`: at least two tokens, the first
word `export` and the second word starting with `PROMPT=`. -/
def promptGuard (tokens : Tokens) : Bool :=
  match tokens with
  | t0 :: t1 :: _ => t0.2 = str "export" && leadsWith (str "PROMPT=") t1.2
  | _ => false

/-- `do_expansion(sh, tokens)`. -/
def do_expansion (sys : Sys) (sh : Shell) (tokens : Tokens) : Tokens :=
  if promptGuard tokens then tokens
  else
    do_command_substitution sys sh
      (expand_glob sys
        (expand_env sys sh
          (expand_brace
            (expand_home sys
              (expand_alias sh tokens)))))

/-- The six passes in the order the specification claims: alias, tilde,
brace, variable, glob, command substitution, each pass processing the whole
token list before the next begins. -/
def sixPassOrder (sys : Sys) (sh : Shell) (tokens : Tokens) : Tokens :=
  do_command_substitution sys sh
    (expand_glob sys
      (expand_env sys sh
        (expand_brace
          (expand_home sys
            (expand_alias sh tokens)))))

/-- The words of the single-quoted tokens of a list, in order. -/
def quotedWords (ts : Tokens) : List Str :=
  (ts.filter (fun t => t.1 = [cQuote])).map (fun t => t.2)

/-- Number of jobs in the table carrying a given process group id. -/
def countGid (jobs : List (Int × Job)) (g : Int) : Nat :=
  (jobs.filter (fun p => p.2.gid = g)).length


/-- Is the first character of a tail outside the name class and not a closing
brace (so the greedy name run and the optional `\}?` stop exactly at the name
boundary)? -/
def tailOk : Str → Bool
  | [] => true
  | c :: _ => !envClass c && c ≠ cRbrace

/-- The per-entry keep condition of the glob filter: not `.` or `..`, and not
hidden unless hidden entries are shown. -/
def globKeep (show_hidden : Bool) (p : Str) : Bool :=
  !(basename p = str ".." || basename p = str "." ||
    (leadsWith (str ".") (basename p) && !show_hidden))

/-- A shell whose previous command exited with status 7. -/
def shStatus7 : Shell := { Shell.new with previous_status := 7 }

/-- A shell aliasing `export` to `echo`. -/
def shAliasExport : Shell := Shell.new.add_alias (str "export") (str "echo")

/-- A shell aliasing `ls` to `echo`. -/
def shAliasLs : Shell := Shell.new.add_alias (str "ls") (str "echo")

/-- The guarded input `export PROMPT=x`. -/
def tsPrompt : Tokens := [([], str "export"), ([], str "PROMPT=x")]

/-- An environment whose sub-pipelines print ` hi ` and a newline. -/
def sysCapture : Sys := { sysNull with runCapture := fun _ => str " hi \n" }

/-- An environment where the glob matcher returns the hidden entry `.ab`. -/
def sysGlobHidden : Sys := { sysNull with glob := fun _ => [str ".ab"] }

/-- An environment where the glob matcher returns a path with a space, a
hidden entry, and the two dot directories. -/
def sysGlobMix : Sys :=
  { sysNull with glob := fun _ => [str "a b", str ".h", str ".", str ".."] }

/-- An environment with `FOO=VAL` in the OS environment. -/
def sysEnvFoo : Sys :=
  { sysNull with osEnv := fun k => if k = str "FOO" then some (str "VAL") else none }

/-- The job table reached by `insert_job(7,70)`, `insert_job(8,80)`,
`remove_pid_from_job(7,70)`, `insert_job(8,81)` from a fresh shell. -/
def shTrace : Shell :=
  ((((Shell.new.insert_job 7 70 (str "x") (str "Running") false).insert_job 8 80
        (str "y") (str "Running") false).remove_pid_from_job 7 70).1).insert_job 8 81
    (str "y") (str "Running") false


theorem takeWhile_append_all {p : Char → Bool} {xs : Str} (ys : Str)
    (h : xs.all p = true) : (xs ++ ys).takeWhile p = xs ++ ys.takeWhile p := by
  induction xs with
  | nil => simp
  | cons c rest ih =>
    simp only [List.all_cons, Bool.and_eq_true] at h
    simp [List.takeWhile_cons, h.1, ih h.2]

theorem dropWhile_append_all {p : Char → Bool} {xs : Str} (ys : Str)
    (h : xs.all p = true) : (xs ++ ys).dropWhile p = ys.dropWhile p := by
  induction xs with
  | nil => simp
  | cons c rest ih =>
    simp only [List.all_cons, Bool.and_eq_true] at h
    simp [List.dropWhile_cons, h.1, ih h.2]

theorem takeWhile_none {p : Char → Bool} {ys : Str}
    (h : ys = [] ∨ ∃ c rest, ys = c :: rest ∧ p c = false) : ys.takeWhile p = [] := by
  match ys, h with
  | [], _ => simp
  | c :: rest, h =>
    obtain h | ⟨c2, r2, heq, hp⟩ := h
    · simp at h
    · obtain ⟨rfl, rfl⟩ := List.cons.injEq .. ▸ heq
      simp [List.takeWhile_cons, hp]

theorem matchNameAt_plain {name tail : Str} (hne : name ≠ [])
    (hcl : name.all envClass = true) (ht : tailOk tail = true) :
    matchNameAt (name ++ tail) = some (name, tail) := by
  match name, hne with
  | n0 :: name1, _ =>
    have hn0 : envClass n0 = true := by
      simp only [List.all_cons, Bool.and_eq_true] at hcl; exact hcl.1
    have hn0b : n0 ≠ cLbrace := by
      intro h; rw [h] at hn0; exact absurd hn0 (by decide)
    have htw : ((n0 :: name1) ++ tail).takeWhile envClass = n0 :: name1 := by
      rw [takeWhile_append_all tail hcl]
      have : tail.takeWhile envClass = [] := by
        apply takeWhile_none
        match tail with
        | [] => exact Or.inl rfl
        | c :: r =>
          refine Or.inr ⟨c, r, rfl, ?_⟩
          simp only [tailOk, Bool.and_eq_true, Bool.not_eq_true'] at ht
          exact ht.1
      rw [this, List.append_nil]
    have hdw : ((n0 :: name1) ++ tail).dropWhile envClass = tail := by
      rw [dropWhile_append_all tail hcl]
      match tail with
      | [] => simp
      | c :: r =>
        simp only [tailOk, Bool.and_eq_true, Bool.not_eq_true'] at ht
        simp [List.dropWhile_cons, ht.1]
    have hdrb : dropRbrace tail = tail := by
      match tail with
      | [] => rfl
      | c :: r =>
        simp only [tailOk, Bool.and_eq_true, Bool.not_eq_true', decide_eq_true_eq] at ht
        simp [dropRbrace, ht.2]
    show matchNameAt (n0 :: (name1 ++ tail)) = _
    unfold matchNameAt
    simp only [if_neg hn0b]
    rw [show n0 :: (name1 ++ tail) = (n0 :: name1) ++ tail from rfl, htw, hdw, hdrb]
    simp

theorem matchNameAt_braced {name tail : Str} (hne : name ≠ [])
    (hcl : name.all envClass = true) :
    matchNameAt (cLbrace :: (name ++ cRbrace :: tail)) = some (name, tail) := by
  have htw : (name ++ cRbrace :: tail).takeWhile envClass = name := by
    rw [takeWhile_append_all _ hcl]
    have : (cRbrace :: tail).takeWhile envClass = [] := by
      simp [List.takeWhile_cons, show envClass cRbrace = false from by decide]
    rw [this, List.append_nil]
  have hdw : (name ++ cRbrace :: tail).dropWhile envClass = cRbrace :: tail := by
    rw [dropWhile_append_all _ hcl]
    simp [List.dropWhile_cons, show envClass cRbrace = false from by decide]
  have hne2 : name.isEmpty = false := by
    match name, hne with
    | c :: r, _ => rfl
  simp only [matchNameAt, if_pos rfl, htw, hdw, hne2]
  simp [dropRbrace]

theorem findCap_append {h acc rest : Str} (hh : h.all (fun c => c ≠ '$') = true) :
    findCap acc (h ++ rest) = findCap (acc ++ h) rest := by
  induction h generalizing acc with
  | nil => simp
  | cons c h1 ih =>
    simp only [List.all_cons, Bool.and_eq_true, decide_eq_true_eq] at hh
    show findCap acc (c :: (h1 ++ rest)) = _
    conv_lhs => rw [findCap]
    rw [if_neg hh.1, ih hh.2]
    congr 1
    simp

theorem extend_eq_some {sys : Sys} {sh : Shell} {token head key tail : Str}
    (hf : findCap [] token = some (head, key, tail)) :
    extend_env_blindly sys sh token =
      head ++ resolveVar sys sh key ++
        (if tail.isEmpty then [] else extend_env_blindly sys sh tail) := by
  rw [extend_env_blindly.eq_def]
  split
  case _ heq => rw [hf] at heq; exact absurd heq (by simp)
  case _ h0 k0 t0 heq =>
    rw [hf] at heq
    simp only [Option.some.injEq, Prod.mk.injEq] at heq
    obtain ⟨rfl, rfl, rfl⟩ := heq
    rfl

theorem extend_nil (sys : Sys) (sh : Shell) : extend_env_blindly sys sh [] = [] := by
  rw [extend_env_blindly.eq_def]
  split
  case _ => rfl
  case _ h0 k0 t0 heq => simp [findCap] at heq

theorem extend_plain (sys : Sys) (sh : Shell) (h name tail : Str)
    (hh : h.all (fun c => c ≠ '$') = true) (hne : name ≠ [])
    (hcl : name.all envClass = true) (ht : tailOk tail = true) :
    extend_env_blindly sys sh (h ++ '$' :: (name ++ tail)) =
      h ++ resolveVar sys sh name ++ extend_env_blindly sys sh tail := by
  have hf : findCap [] (h ++ '$' :: (name ++ tail)) = some (h, name, tail) := by
    rw [findCap_append hh]
    unfold findCap
    rw [if_pos rfl, matchNameAt_plain hne hcl ht]
    simp
  rw [extend_eq_some hf]
  match tail with
  | [] => simp [extend_nil]
  | c :: r => rfl

theorem extend_braced (sys : Sys) (sh : Shell) (h name tail : Str)
    (hh : h.all (fun c => c ≠ '$') = true) (hne : name ≠ [])
    (hcl : name.all envClass = true) :
    extend_env_blindly sys sh (h ++ '$' :: cLbrace :: (name ++ cRbrace :: tail)) =
      h ++ resolveVar sys sh name ++ extend_env_blindly sys sh tail := by
  have hf : findCap [] (h ++ '$' :: cLbrace :: (name ++ cRbrace :: tail)) =
      some (h, name, tail) := by
    rw [findCap_append hh]
    unfold findCap
    rw [if_pos rfl, matchNameAt_braced hne hcl]
    simp
  rw [extend_eq_some hf]
  match tail with
  | [] => simp [extend_nil]
  | c :: r => rfl

theorem quotedWords_cons (t : Token) (ts : Tokens) :
    quotedWords (t :: ts) =
      if t.1 = [cQuote] then t.2 :: quotedWords ts else quotedWords ts := by
  unfold quotedWords
  by_cases h : t.1 = [cQuote] <;> simp [List.filter_cons, h]

theorem quotedWords_map {F : Token → Token} (hsep : ∀ t, (F t).1 = t.1)
    (hq : ∀ w, F ([cQuote], w) = ([cQuote], w)) :
    ∀ ts : Tokens, quotedWords (ts.map F) = quotedWords ts := by
  intro ts
  induction ts with
  | nil => rfl
  | cons t rest ih =>
    rw [List.map_cons, quotedWords_cons, quotedWords_cons, hsep t, ih]
    by_cases h : t.1 = [cQuote]
    · rw [if_pos h, if_pos h]
      have ht : t = ([cQuote], t.2) := by
        obtain ⟨a, b⟩ := t
        simp only at h
        rw [h]
      rw [ht, hq]
    · rw [if_neg h, if_neg h]

theorem quotedWords_expand_home (sys : Sys) (ts : Tokens) :
    quotedWords (expand_home sys ts) = quotedWords ts := by
  unfold expand_home
  refine quotedWords_map (fun t => ?_) (fun w => ?_) ts
  · dsimp only
    split <;> rfl
  · rfl

theorem quotedWords_expand_env (sys : Sys) (sh : Shell) (ts : Tokens) :
    quotedWords (expand_env sys sh ts) = quotedWords ts := by
  unfold expand_env
  refine quotedWords_map (fun t => ?_) (fun w => ?_) ts
  · dsimp only
    split <;> rfl
  · simp

theorem quotedWords_subst_dot (sys : Sys) (sh : Shell) (ts : Tokens) :
    quotedWords (do_command_substitution_for_dot sys sh ts) = quotedWords ts := by
  unfold do_command_substitution_for_dot
  refine quotedWords_map (fun t => ?_) (fun w => ?_) ts
  · dsimp only
    split
    · rfl
    · split
      · split <;> rfl
      · rfl
  · simp [show ([cQuote] : Str) ≠ [cBtick] from by decide,
      show ([cQuote] : Str) ≠ [cDquote] from by decide]

theorem quotedWords_subst_dollar (sys : Sys) (sh : Shell) (ts : Tokens) :
    quotedWords (do_command_substitution_for_dollar sys sh ts) = quotedWords ts := by
  unfold do_command_substitution_for_dollar
  refine quotedWords_map (fun t => ?_) (fun w => ?_) ts
  · dsimp only
    split <;> rfl
  · simp

theorem aliasBuff_nil (sh : Shell) :
    ∀ (ts : Tokens) (idx : Nat) (hd : Bool),
      (∀ t ∈ ts, sh.is_alias t.2 = false) → aliasBuff sh idx hd ts = [] := by
  intro ts
  induction ts with
  | nil => intro idx hd _; rfl
  | cons t rest ih =>
    intro idx hd h
    have ht := h t (List.mem_cons_self ..)
    have hrest : ∀ u ∈ rest, sh.is_alias u.2 = false := fun u hu =>
      h u (List.mem_cons_of_mem _ hu)
    unfold aliasBuff
    split
    · exact ih _ _ hrest
    · rw [if_pos (by rw [ht]; simp)]
      exact ih _ _ hrest

theorem expand_alias_id (sh : Shell) (ts : Tokens)
    (h : ∀ t ∈ ts, sh.is_alias t.2 = false) : expand_alias sh ts = ts := by
  unfold expand_alias
  rw [aliasBuff_nil sh ts 0 true h]
  rfl

theorem buffOf_nil (gate : Str → Bool) (result : Str → List Str) :
    ∀ (ts : Tokens) (idx : Nat),
      (∀ t ∈ ts, t.1 = [] → gate t.2 = false) → buffOf gate result idx ts = [] := by
  intro ts
  induction ts with
  | nil => intro idx _; rfl
  | cons t rest ih =>
    intro idx h
    have hrest : ∀ u ∈ rest, u.1 = [] → gate u.2 = false := fun u hu =>
      h u (List.mem_cons_of_mem _ hu)
    unfold buffOf
    rw [if_pos ?_]
    · exact ih _ hrest
    · match hsep : t.1 with
      | [] =>
        rw [h t (List.mem_cons_self ..) hsep]
        simp
      | c :: r => simp

theorem expand_brace_id (ts : Tokens)
    (h : ∀ t ∈ ts, t.1 = [] → should_extend_brace t.2 = false) : expand_brace ts = ts := by
  unfold expand_brace
  rw [buffOf_nil _ _ ts 0 h]
  rfl

theorem expand_glob_id (sys : Sys) (ts : Tokens)
    (h : ∀ t ∈ ts, t.1 = [] → needs_globbing t.2 = false) : expand_glob sys ts = ts := by
  unfold expand_glob
  rw [buffOf_nil _ _ ts 0 h]
  rfl

theorem hmGet_insert_self {α : Type} [DecidableEq α] {β : Type}
    (l : List (α × β)) (k : α) (v : β) : hmGet (hmInsert l k v) k = some v := by
  induction l with
  | nil => simp [hmInsert, hmGet, List.find?]
  | cons p rest ih =>
    obtain ⟨k0, v0⟩ := p
    unfold hmInsert
    by_cases h : k0 = k
    · rw [if_pos h]
      simp [hmGet, List.find?]
    · rw [if_neg h]
      unfold hmGet at ih ⊢
      rw [List.find?_cons_of_neg _ (by simpa using h)]
      exact ih

theorem get_alias_content_add_empty (sh : Shell) (name : Str) :
    (sh.add_alias name []).get_alias_content name = none := by
  unfold Shell.get_alias_content Shell.add_alias
  simp only [hmGet_insert_self]
  rfl


theorem repl1Aux_nospace (home : Str) :
    ∀ (fuel : Nat) (s : Str), s.all (fun c => c ≠ ' ') = true → repl1Aux home fuel s = s := by
  intro fuel
  induction fuel with
  | zero => intro s _; rfl
  | succ fuel ih =>
    intro s h
    match s with
    | [] => rfl
    | c :: rest =>
      simp only [List.all_cons, Bool.and_eq_true, decide_eq_true_eq] at h
      unfold repl1Aux
      rw [if_neg h.1, ih rest (by simpa using h.2)]

theorem repl2Aux_nospace (home : Str) :
    ∀ (fuel : Nat) (s : Str), s.all (fun c => c ≠ ' ') = true → repl2Aux home fuel s = s := by
  intro fuel
  induction fuel with
  | zero => intro s _; rfl
  | succ fuel ih =>
    intro s h
    match s with
    | [] => rfl
    | c :: rest =>
      simp only [List.all_cons, Bool.and_eq_true, decide_eq_true_eq] at h
      unfold repl2Aux
      rw [if_neg h.1, ih rest (by simpa using h.2)]

theorem repl4Aux_nospace (home : Str) :
    ∀ (fuel : Nat) (s : Str), s.all (fun c => c ≠ ' ') = true → repl4Aux home fuel s = s := by
  intro fuel
  induction fuel with
  | zero => intro s _; rfl
  | succ fuel ih =>
    intro s h
    match s with
    | [] => rfl
    | c :: rest =>
      simp only [List.all_cons, Bool.and_eq_true, decide_eq_true_eq] at h
      unfold repl4Aux
      rw [if_neg h.1, ih rest (by simpa using h.2)]

theorem repl3_tilde_slash (home rest : Str) :
    repl3 home ('~' :: '/' :: rest) = home ++ '/' :: rest := by
  unfold repl3
  simp [List.dropWhile_cons, List.takeWhile_cons]

theorem needs_expand_home_tilde_slash (rest : Str) :
    needs_expand_home ('~' :: '/' :: rest) = true := by
  unfold needs_expand_home
  simp [List.dropWhile_cons]

theorem nospace_of_nows {s : Str} (h : s.all (fun c => isWs c = false) = true) :
    s.all (fun c => c ≠ ' ') = true := by
  induction s with
  | nil => rfl
  | cons c rest ih =>
    simp only [List.all_cons, Bool.and_eq_true] at h ⊢
    refine ⟨?_, ih h.2⟩
    simp only [decide_eq_true_eq]
    intro hc
    rw [hc] at h
    exact absurd h.1 (by decide)

theorem dropWhile_id_of_nows {s : Str} (h : s.all (fun c => isWs c = false) = true) :
    s.dropWhile isWs = s := by
  match s with
  | [] => rfl
  | c :: rest =>
    simp only [List.all_cons, Bool.and_eq_true] at h
    have hc : isWs c = false := by simpa using h.1
    simp [List.dropWhile_cons, hc]

theorem rustTrim_nows {s : Str} (h : s.all (fun c => isWs c = false) = true) :
    rustTrim s = s := by
  unfold rustTrim
  rw [dropWhile_id_of_nows h]
  rw [dropWhile_id_of_nows (by simpa using h)]
  simp

theorem contains_space_false {s : Str} (h : s.all (fun c => isWs c = false) = true) :
    s.contains ' ' = false := by
  induction s with
  | nil => rfl
  | cons c rest ih =>
    simp only [List.all_cons, Bool.and_eq_true] at h
    have hc : c ≠ ' ' := by
      intro hc
      rw [hc] at h
      exact absurd h.1 (by decide)
    simp only [List.contains_cons]
    rw [ih h.2]
    simp [hc]
    intro hc2
    exact absurd hc2.symm hc

theorem splitSpaceAux_nospace :
    ∀ (s cur : Str), s.all (fun c => c ≠ ' ') = true → splitSpaceAux cur s = [cur ++ s] := by
  intro s
  induction s with
  | nil => intro cur _; simp [splitSpaceAux]
  | cons c rest ih =>
    intro cur h
    simp only [List.all_cons, Bool.and_eq_true, decide_eq_true_eq] at h
    unfold splitSpaceAux
    rw [if_neg h.1, ih _ (by simpa using h.2)]
    simp

theorem globMatchLoop_eq (show_hidden : Bool) (paths : List Str) :
    globMatchLoop paths show_hidden =
      (paths.filter (globKeep show_hidden),
        (paths.filter (globKeep show_hidden)).isEmpty) := by
  suffices hgen : ∀ (ps : List Str) (acc : List Str) (e : Bool),
      ps.foldl
        (fun acc p =>
          let b := basename p
          if b = str ".." || b = str "." then acc
          else if leadsWith (str ".") b && !show_hidden then acc
          else (acc.1 ++ [p], false))
        (acc, e) =
      (acc ++ ps.filter (globKeep show_hidden),
        e && (ps.filter (globKeep show_hidden)).isEmpty) by
    unfold globMatchLoop
    rw [hgen paths [] true]
    simp
  intro ps
  induction ps with
  | nil => intro acc e; simp
  | cons p rest ih =>
    intro acc e
    simp only [List.foldl_cons]
    by_cases h1 : (basename p = str ".." || basename p = str "." : Bool) = true
    · have hk : globKeep show_hidden p = false := by
        unfold globKeep
        rw [h1]
        simp
      simp only [List.filter_cons, hk]
      rw [if_pos h1]
      exact ih acc e
    · by_cases h2 : (leadsWith (str ".") (basename p) && !show_hidden) = true
      · have hk : globKeep show_hidden p = false := by
          unfold globKeep
          rw [h2]
          simp [Bool.or_true]
        simp only [List.filter_cons, hk]
        rw [if_neg h1, if_pos h2]
        exact ih acc e
      · have hk : globKeep show_hidden p = true := by
          unfold globKeep
          simp only [Bool.not_eq_true] at h1 h2
          rw [h1, h2]
          rfl
        simp only [List.filter_cons, hk]
        rw [if_neg h1, if_neg h2]
        rw [ih (acc ++ [p]) false]
        simp


/-- Claim C1 (amended): for every shell state and token list NOT caught by the
`export PROMPT=` guard, `do_expansion` applies exactly the six passes in the
fixed order alias, tilde, brace, variable, glob, command substitution, each
pass running over the whole token list before the next begins. -/
theorem do_expansion_six_passes (sys : Sys) (sh : Shell) (ts : Tokens)
    (h : promptGuard ts = false) : do_expansion sys sh ts = sixPassOrder sys sh ts := by
  unfold do_expansion sixPassOrder
  rw [if_neg (by simp [h])]

/-- Witness for C1: a concrete non-guarded input. -/
theorem do_expansion_six_passes_witness :
    promptGuard [([], str "ls")] = false ∧
      do_expansion sysNull Shell.new [([], str "ls")] =
        sixPassOrder sysNull Shell.new [([], str "ls")] :=
  ⟨by decide, do_expansion_six_passes sysNull Shell.new [([], str "ls")] (by decide)⟩

/-- Counterexample for C1 as stated: on `export PROMPT=x` under an alias for
`export`, `do_expansion` returns the tokens unchanged while the six passes
would rewrite the head token, so the six passes are not applied for every
shell state and token list. -/
theorem do_expansion_guard_counterexample :
    do_expansion sysNull shAliasExport tsPrompt ≠
      sixPassOrder sysNull shAliasExport tsPrompt := by decide

/-- Claim C2 (the code violates it): from a fresh shell, after
`insert_job(7,70)`, `insert_job(8,80)`, `remove_pid_from_job(7,70)` and
`insert_job(8,81)`, the table holds TWO jobs with gid 8 — the last insert
created a new job with id 1 instead of pushing pid 81 onto the existing
gid-8 job with id 2, because the id scan reaches the free id 1 before it
ever inspects id 2. -/
theorem insert_job_duplicate_gid :
    countGid shTrace.jobs 8 = 2 ∧
      hmGet shTrace.jobs 1 = some
        { cmd := str "y", id := 1, gid := 8, pids := [81],
          status := str "Running", report := false } ∧
      hmGet shTrace.jobs 2 = some
        { cmd := str "y", id := 2, gid := 8, pids := [80],
          status := str "Running", report := false } := by decide

/-- Counterexample for C5 as stated: the captured stdout ` hi \n` is trimmed
of leading AND trailing whitespace (not only trailing newlines), and the
resulting token keeps separator `` ` `` instead of becoming `""`. -/
theorem backtick_substitution_counterexample :
    do_command_substitution sysCapture Shell.new [([cBtick], str "cmd")] =
        [([cBtick], str "hi")] ∧
      sysCapture.runCapture (cmd_to_tokens (str "cmd")) = str " hi \n" ∧
      ([cBtick] : Str) ≠ ([] : Str) ∧
      str "hi" ≠ str " hi" := by decide

/-- Claim C5 (amended): a token with separator `` ` `` has its text run as a
sub-pipeline and its word replaced by the captured stdout trimmed of leading
and trailing whitespace; the separator stays `` ` `` (the writeback assigns
only the word).  The hypothesis keeps the dollar-paren pass from touching
the substituted output. -/
theorem backtick_substitution (sys : Sys) (sh : Shell) (w : Str)
    (h : should_do_dollar_command_extension
        (rustTrim (sys.runCapture (cmd_to_tokens w))) = false) :
    do_command_substitution sys sh [([cBtick], w)] =
      [([cBtick], rustTrim (sys.runCapture (cmd_to_tokens w)))] := by
  have h1 : do_command_substitution_for_dot sys sh [([cBtick], w)] =
      [([cBtick], rustTrim (sys.runCapture (cmd_to_tokens w)))] := by
    unfold do_command_substitution_for_dot
    simp
  have h2 : do_command_substitution_for_dollar sys sh
      [([cBtick], rustTrim (sys.runCapture (cmd_to_tokens w)))] =
      [([cBtick], rustTrim (sys.runCapture (cmd_to_tokens w)))] := by
    unfold do_command_substitution_for_dollar
    simp only [List.map_cons, List.map_nil]
    rw [if_pos (by rw [h]; simp)]
  unfold do_command_substitution
  rw [h1, h2]

/-- Witness for C5: the concrete capture ` hi \n`. -/
theorem backtick_substitution_witness :
    should_do_dollar_command_extension
        (rustTrim (sysCapture.runCapture (cmd_to_tokens (str "cmd")))) = false ∧
      do_command_substitution sysCapture Shell.new [([cBtick], str "cmd")] =
        [([cBtick], rustTrim (sysCapture.runCapture (cmd_to_tokens (str "cmd"))))] :=
  ⟨by decide, backtick_substitution sysCapture Shell.new (str "cmd") (by decide)⟩

/-- Claim C9: `expand_env` preserves the number of tokens and the separator
of every token — it only rewrites words in place. -/
theorem expand_env_frame (sys : Sys) (sh : Shell) (ts : Tokens) :
    (expand_env sys sh ts).length = ts.length ∧
      (expand_env sys sh ts).map Prod.fst = ts.map Prod.fst := by
  constructor
  · unfold expand_env
    simp
  · unfold expand_env
    induction ts with
    | nil => rfl
    | cons t rest ih =>
      simp only [List.map_cons, List.cons.injEq]
      constructor
      · dsimp only
        split <;> rfl
      · exact ih

/-- Claim C10: `get_alias_content` is `None` exactly when the name is absent
from the alias map or bound to the empty string; after `add_alias(name, "")`
the name still `is_alias`, yet `expand_alias` leaves a head token equal to it
unchanged. -/
theorem alias_empty_content (sh : Shell) (name : Str) :
    (sh.get_alias_content name = none ↔
      hmGet sh.aliases name = none ∨ hmGet sh.aliases name = some []) ∧
      (sh.add_alias name []).is_alias name = true ∧
      expand_alias (sh.add_alias name []) [([], name)] = [([], name)] := by
  refine ⟨?_, ?_, ?_⟩
  · unfold Shell.get_alias_content
    match hg : hmGet sh.aliases name with
    | none => simp
    | some x =>
      match x with
      | [] => simp
      | c :: r => simp
  · unfold Shell.is_alias Shell.add_alias
    simp [hmGet_insert_self]
  · unfold expand_alias
    rw [show aliasBuff (sh.add_alias name []) 0 true [([], name)] = [] from ?_]
    · rfl
    · unfold aliasBuff
      by_cases hp : name = str "|"
      · rw [if_pos (by simp [hp])]
        rfl
      · rw [if_neg (by simp [hp])]
        rw [if_neg ?_]
        · rw [get_alias_content_add_empty]
          rfl
        · have : (sh.add_alias name []).is_alias name = true := by
            unfold Shell.is_alias Shell.add_alias
            simp [hmGet_insert_self]
          simp [this]


/-- Claim C8: `expand_env` leaves unchanged any token equal to `$` followed by
one alphanumeric character, because `env_in_token` requires the exact tokens
`$$`/`$?` or a name of a letter plus at least one more name character. -/
theorem expand_env_single_char_skipped (sys : Sys) (sh : Shell) (ts : Tokens)
    (i : Nat) (sep : Str) (c : Char) (hc : c.isAlphanum = true)
    (hi : ts.get? i = some (sep, ['$', c])) :
    (expand_env sys sh ts).get? i = some (sep, ['$', c]) := by
  have h1 : c ≠ '$' := by
    intro h
    rw [h] at hc
    exact absurd hc (by decide)
  have h2 : c ≠ '?' := by
    intro h
    rw [h] at hc
    exact absurd hc (by decide)
  have henv : env_in_token ['$', c] = false := by
    unfold env_in_token
    have hvar : hasEnvVar ['$', c] = false := by
      simp [hasEnvVar, startsName]
    rw [hvar]
    simp [str, h1, h2]
  unfold expand_env
  rw [List.get?_map, hi]
  simp [henv]

/-- Witness for C8: the token `$A` survives `expand_env` verbatim. -/
theorem expand_env_single_char_skipped_witness :
    ('A'.isAlphanum = true) ∧
      (expand_env sysNull Shell.new [([], ['$', 'A'])]).get? 0 = some ([], ['$', 'A']) :=
  ⟨by decide,
    expand_env_single_char_skipped sysNull Shell.new [([], ['$', 'A'])] 0 [] 'A'
      (by decide) (by decide)⟩

/-- Counterexample for C6 as stated: a token consisting of exactly `~` is NOT
expanded — none of the four source regexes matches a bare tilde (the anchored
one requires a following slash), while the claim's pattern `(^| )~( |/|$)`
matches it. -/
theorem expand_home_bare_tilde_counterexample :
    expand_home sysNull [([], str "~")] = [([], str "~")] ∧
      sysNull.home = str "/home/u" ∧
      expand_home sysNull [([], str "~")] ≠ [([], sysNull.home)] := by decide

/-- Claim C6 (amended): tilde expansion implements the four regexes
`( +)~( +)`, `( +)~(/)`, `^( *)~(/)`, `( +)~( *$)`: a bare `~` token is left
unchanged, a token starting `~/` has the tilde replaced by the home
directory, and quoted tokens are untouched. -/
theorem expand_home_tilde :
    (∀ sys : Sys, expand_home sys [([], str "~")] = [([], str "~")]) ∧
      (∀ (sys : Sys) (rest : Str),
        rest.all (fun c => c ≠ ' ') = true →
        sys.home.all (fun c => c ≠ ' ') = true →
        expand_home sys [([], '~' :: '/' :: rest)] = [([], sys.home ++ '/' :: rest)]) ∧
      (∀ (sys : Sys) (sep w : Str), sep ≠ [] →
        expand_home sys [(sep, w)] = [(sep, w)]) := by
  refine ⟨?_, ?_, ?_⟩
  · intro sys
    unfold expand_home
    simp only [List.map_cons, List.map_nil]
    rw [show needs_expand_home (str "~") = false from by decide]
    simp
  · intro sys rest hr hh
    have hall : ('~' :: '/' :: rest).all (fun c => c ≠ ' ') = true := by
      simp only [List.all_cons, Bool.and_eq_true]
      exact ⟨by decide, by decide, hr⟩
    unfold expand_home
    simp only [List.map_cons, List.map_nil]
    rw [if_neg ?_]
    · unfold expandHomeWord
      unfold repl1 repl2
      rw [repl1Aux_nospace _ _ _ hall, repl2Aux_nospace _ _ _ hall,
        repl3_tilde_slash]
      unfold repl4
      rw [repl4Aux_nospace _ _ _ ?_]
      simp only [List.all_append, List.all_cons, Bool.and_eq_true]
      exact ⟨hh, by decide, hr⟩
    · rw [needs_expand_home_tilde_slash]
      simp
  · intro sys sep w hsep
    unfold expand_home
    match sep, hsep with
    | c :: r, _ => simp

/-- Witness for C6: `~/bin` expands to the home directory plus `/bin`. -/
theorem expand_home_tilde_witness :
    ((str "bin").all (fun c => c ≠ ' ') = true) ∧
      expand_home sysNull [([], '~' :: '/' :: str "bin")] =
        [([], sysNull.home ++ '/' :: str "bin")] :=
  ⟨by decide, expand_home_tilde.2.1 sysNull (str "bin") (by decide) (by decide)⟩

/-- Counterexample for C3 as stated: alias expansion tests only head position
and the alias map, not the separator, so a single-quoted head token `ls`
naming an alias is rewritten and no single-quoted token survives. -/
theorem quoted_alias_counterexample :
    quotedWords (do_expansion sysNull shAliasLs [([cQuote], str "ls")]) ≠
      quotedWords [([cQuote], str "ls")] := by decide

/-- Claim C3 (amended): provided no token's word names an alias (alias
expansion ignores the separator) and no unquoted token triggers brace or glob
splicing at its point in the pipeline (the buffered splice applies stale
indices), every single-quoted token's word survives `do_expansion`
unchanged; in particular the remaining passes never rewrite a token with
separator `'`. -/
theorem quoted_tokens_preserved (sys : Sys) (sh : Shell) (ts : Tokens)
    (h1 : ∀ t ∈ ts, sh.is_alias t.2 = false)
    (h2 : ∀ t ∈ expand_home sys ts, t.1 = [] → should_extend_brace t.2 = false)
    (h3 : ∀ t ∈ expand_env sys sh (expand_home sys ts), t.1 = [] →
      needs_globbing t.2 = false) :
    quotedWords (do_expansion sys sh ts) = quotedWords ts := by
  unfold do_expansion
  split
  · rfl
  · rw [expand_alias_id sh ts h1]
    rw [expand_brace_id _ h2]
    rw [expand_glob_id sys _ h3]
    unfold do_command_substitution
    rw [quotedWords_subst_dollar, quotedWords_subst_dot, quotedWords_expand_env,
      quotedWords_expand_home]

/-- Witness for C3: a quoted `ls` next to an unquoted `-l` under an empty
alias map. -/
theorem quoted_tokens_preserved_witness :
    (∀ t ∈ ([([cQuote], str "ls"), ([], str "-l")] : Tokens),
        Shell.new.is_alias t.2 = false) ∧
      quotedWords (do_expansion sysNull Shell.new [([cQuote], str "ls"), ([], str "-l")]) =
        quotedWords [([cQuote], str "ls"), ([], str "-l")] :=
  ⟨by decide,
    quoted_tokens_preserved sysNull Shell.new [([cQuote], str "ls"), ([], str "-l")]
      (by decide) (by decide) (by decide)⟩


/-- Counterexample for C4 as stated: the token `x$?` contains `$?` and has
empty separator, yet `expand_env` leaves it unchanged — `env_in_token`
accepts `$?` only as the whole token. -/
theorem expand_env_x_qmark_counterexample :
    expand_env sysNull shStatus7 [([], str "x$?")] = [([], str "x$?")] ∧
      shStatus7.previous_status = 7 := by decide

/-- Claim C4 (amended): `expand_env` processes a token only when
`env_in_token` holds (the exact tokens `$$`/`$?`, or `$`/`${` followed by a
letter and one more name character); on processed tokens each leftmost match
of `([^$]*)\$\{?([A-Za-z0-9?$_]+)\}?(.*)` is rewritten, the greedy key `?`
giving the previous status, `$` the process id, then the OS environment over
the shell-scoped map over the empty string, repeating on the tail. -/
theorem variable_expansion_resolution :
    (∀ (sys : Sys) (sh : Shell) (sep w : Str),
        sep = [cBtick] ∨ sep = [cQuote] ∨ env_in_token w = false →
        expand_env sys sh [(sep, w)] = [(sep, w)]) ∧
      (∀ (sys : Sys) (sh : Shell) (sep w : Str),
        sep ≠ [cBtick] → sep ≠ [cQuote] → env_in_token w = true →
        expand_env sys sh [(sep, w)] = [(sep, extend_env_blindly sys sh w)]) ∧
      (∀ (sys : Sys) (sh : Shell) (h name tail : Str),
        h.all (fun c => c ≠ '$') = true → name ≠ [] → name.all envClass = true →
        tailOk tail = true →
        extend_env_blindly sys sh (h ++ '$' :: (name ++ tail)) =
          h ++ resolveVar sys sh name ++ extend_env_blindly sys sh tail) ∧
      (∀ (sys : Sys) (sh : Shell) (h name tail : Str),
        h.all (fun c => c ≠ '$') = true → name ≠ [] → name.all envClass = true →
        extend_env_blindly sys sh (h ++ '$' :: cLbrace :: (name ++ cRbrace :: tail)) =
          h ++ resolveVar sys sh name ++ extend_env_blindly sys sh tail) ∧
      (∀ (sys : Sys) (sh : Shell),
        resolveVar sys sh (str "?") = (toString sh.previous_status).data ∧
          resolveVar sys sh (str "$") = (toString sys.pid).data) ∧
      (∀ (sys : Sys) (sh : Shell) (key v : Str),
        key ≠ str "?" → key ≠ str "$" → sys.osEnv key = some v →
        resolveVar sys sh key = v) ∧
      (∀ (sys : Sys) (sh : Shell) (key v : Str),
        key ≠ str "?" → key ≠ str "$" → sys.osEnv key = none →
        sh.get_env key = some v → resolveVar sys sh key = v) ∧
      (∀ (sys : Sys) (sh : Shell) (key : Str),
        key ≠ str "?" → key ≠ str "$" → sys.osEnv key = none →
        sh.get_env key = none → resolveVar sys sh key = []) := by
  refine ⟨?_, ?_, ?_, ?_, ?_, ?_, ?_, ?_⟩
  · intro sys sh sep w hskip
    unfold expand_env
    simp only [List.map_cons, List.map_nil]
    rcases hskip with h | h | h
    · rw [if_pos (by simp [h])]
    · rw [if_pos (by simp [h])]
    · rw [if_pos (by simp [h])]
  · intro sys sh sep w h1 h2 h3
    unfold expand_env
    simp only [List.map_cons, List.map_nil]
    rw [if_neg (by simp [h1, h2, h3])]
  · intro sys sh h name tail hh hne hcl ht
    exact extend_plain sys sh h name tail hh hne hcl ht
  · intro sys sh h name tail hh hne hcl
    exact extend_braced sys sh h name tail hh hne hcl
  · intro sys sh
    constructor
    · unfold resolveVar
      rw [if_pos rfl]
    · unfold resolveVar
      rw [if_neg (by decide), if_pos rfl]
  · intro sys sh key v hq hd hos
    unfold resolveVar
    rw [if_neg hq, if_neg hd, hos]
  · intro sys sh key v hq hd hos hsh
    unfold resolveVar
    rw [if_neg hq, if_neg hd, hos, hsh]
  · intro sys sh key hq hd hos hsh
    unfold resolveVar
    rw [if_neg hq, if_neg hd, hos, hsh]

/-- Witness for C4: one plain step at `a$FOO-b` with `FOO=VAL` in the OS
environment. -/
theorem variable_expansion_resolution_witness :
    ((str "a").all (fun c => c ≠ '$') = true) ∧
      extend_env_blindly sysEnvFoo shStatus7 (str "a" ++ '$' :: (str "FOO" ++ str "-b")) =
        str "a" ++ resolveVar sysEnvFoo shStatus7 (str "FOO") ++
          extend_env_blindly sysEnvFoo shStatus7 (str "-b") :=
  ⟨by decide,
    variable_expansion_resolution.2.2.1 sysEnvFoo shStatus7 (str "a") (str "FOO")
      (str "-b") (by decide) (by decide) (by decide) (by decide)⟩

/-- Counterexample for C7 as stated: with the pattern `.a*` (whose basename
starts with `.` but not with the two characters `.*`), the hidden match
`.ab` is still excluded and the token falls back verbatim; the claim's
exemption for patterns whose basename starts with `.` does not hold. -/
theorem expand_glob_hidden_counterexample :
    expand_glob sysGlobHidden [([], str ".a*")] = [([], str ".a*")] ∧
      sysGlobHidden.glob (str ".a*") = [str ".ab"] ∧
      leadsWith (str ".") (basename (str ".a*")) = true ∧
      leadsWith (str ".*") (basename (str ".a*")) = false := by decide

/-- Claim C7 (amended): glob expansion of a single unquoted starred token
keeps exactly the matches that are not `.` or `..` and not hidden — hidden
entries being shown only when the pattern's basename starts with the two
characters `.*` — falls back to the verbatim token when nothing survives,
and emits matches containing a space with separator `"`. -/
theorem expand_glob_policy (sys : Sys) (p : Str)
    (hng : needs_globbing p = true)
    (hws : p.all (fun c => isWs c = false) = true)
    (hstar : p.contains '*' = true)
    (hq : leadsWith [cQuote] p = false)
    (hdq : leadsWith [cDquote] p = false) :
    expand_glob sys [([], p)] =
      if ((sys.glob p).filter (globKeep (leadsWith (str ".*") (basename p)))).isEmpty then
        [([], p)]
      else
        ((sys.glob p).filter (globKeep (leadsWith (str ".*") (basename p)))).map
          (fun f => ((if f.contains ' ' then [cDquote] else []), f)) := by
  have hnospace : p.all (fun c => c ≠ ' ') = true := nospace_of_nows hws
  have hsplit : splitSpace p = [p] := by
    unfold splitSpace
    simpa using splitSpaceAux_nospace p [] hnospace
  have hmem : '*' ∈ p := by simpa using hstar
  have hnosp : ' ' ∉ p := by simpa using contains_space_false hws
  have hitem : globItem sys p =
      if ((sys.glob p).filter (globKeep (leadsWith (str ".*") (basename p)))).isEmpty then
        [p]
      else (sys.glob p).filter (globKeep (leadsWith (str ".*") (basename p))) := by
    unfold globItem
    rw [rustTrim_nows hws, if_neg (by simp [hmem, hq, hdq])]
    simp only [globMatchLoop_eq]
  have hres : globResult sys p =
      if ((sys.glob p).filter (globKeep (leadsWith (str ".*") (basename p)))).isEmpty then
        [p]
      else (sys.glob p).filter (globKeep (leadsWith (str ".*") (basename p))) := by
    unfold globResult
    rw [hsplit]
    simp only [List.foldr_cons, List.foldr_nil, List.append_nil]
    exact hitem
  have hbuff : buffOf needs_globbing (globResult sys) 0 [([], p)] =
      [(0, globResult sys p)] := by
    unfold buffOf
    rw [if_neg (by simp [hng])]
    rfl
  unfold expand_glob
  rw [hbuff]
  unfold applyBuff
  simp only [List.foldl_cons, List.foldl_nil]
  rw [hres]
  by_cases hemp :
      ((sys.glob p).filter (globKeep (leadsWith (str ".*") (basename p)))).isEmpty = true
  · rw [if_pos hemp, if_pos hemp]
    simp [hnosp]
  · rw [if_neg hemp, if_neg hemp]
    simp

/-- Witness for C7: a mixed match set with a spaced path, a hidden entry and
the two dot directories under the pattern `a*`. -/
theorem expand_glob_policy_witness :
    needs_globbing (str "a*") = true ∧
      expand_glob sysGlobMix [([], str "a*")] =
        (if ((sysGlobMix.glob (str "a*")).filter
              (globKeep (leadsWith (str ".*") (basename (str "a*"))))).isEmpty then
          [([], str "a*")]
        else
          ((sysGlobMix.glob (str "a*")).filter
              (globKeep (leadsWith (str ".*") (basename (str "a*"))))).map
            (fun f => ((if f.contains ' ' then [cDquote] else []), f))) :=
  ⟨by decide,
    expand_glob_policy sysGlobMix (str "a*") (by decide) (by decide) (by decide)
      (by decide) (by decide)⟩

end Cicada
